import Mathlib

/-!
Shallow embedding of the LWMessageQueue repository.

The repository contains three ring-buffer variants with identical field
layout (a fixed array `elements[SIZE]`, a `readPoint`, a `writePoint` and an
atomic `numElements`, all `uint32_t`):

* `src/LWMessageQueue.h` : `LWMessageQueue::ThreadChannel`, which advances
  its indices with a bitmask `(i + 1) & sizeMinusOne` and statically asserts
  that `SIZE` is a power of two (`Internal::isPowerOfTwo`);
* `src/Internal/WaitFreeFifo.h` : `LWMessageQueue::Internal::WaitFreeFifo`,
  which advances its indices with a modulo `(i + 1) % S`;
* `src/MessageQueue.h` : a second `LWMessageQueue::ThreadChannel` whose
  `pushBack`/`popFront`/`size` bodies are textually identical to the
  `WaitFreeFifo` ones (modulo advancement).  `Internal.WaitFreeFifo` below
  therefore embeds both of these modulo variants.

All counters are `uint32_t`, so additions and subtractions are performed
modulo `2^32` (`u32add`, `u32sub` below).  The element array is embedded as a
`List` whose length is the channel capacity; machine state that the claims
depend on (the stored containers, the two cursors, the occupancy counter) is
carried explicitly and all operations are executable.
-/

namespace LWMessageQueue

/-- `2^32`, the modulus of `uint32_t` arithmetic. -/
def U32 : Nat := 4294967296

/-- `uint32_t` addition: wraps modulo `2^32`. -/
def u32add (a b : Nat) : Nat := (a + b) % U32

/-- `uint32_t` subtraction: wraps modulo `2^32`. -/
def u32sub (a b : Nat) : Nat := (a + (U32 - b % U32)) % U32

/-- `static constexpr uint32_t sizeMinusOne = SIZE - 1;`
(`src/LWMessageQueue.h` line 185, `uint32_t` arithmetic). -/
def sizeMinusOne (SIZE : Nat) : Nat := u32sub SIZE 1

namespace Internal

/-- `constexpr bool isPowerOfTwo(const uint32_t value)`
(`src/LWMessageQueue.h` lines 190-192):
`(value != 0) && ((value & (value - 1)) == 0)`. -/
def isPowerOfTwo (value : Nat) : Bool :=
  (value != 0) && ((value &&& (value - 1)) == 0)

/-- State of `Internal::WaitFreeFifo<T, S>` (`src/Internal/WaitFreeFifo.h`
lines 20-55) and equally of `ThreadChannel` in `src/MessageQueue.h`
(lines 120-135): element array, read cursor, write cursor, element count. -/
structure WaitFreeFifo (α : Type) where
  elements : List α
  readPoint : Nat
  writePoint : Nat
  numElements : Nat
deriving DecidableEq, Repr

/-- The constructed state: `readPoint(0), writePoint(0), numElements(0)`;
the `S` array cells hold indeterminate default-constructed values. -/
def WaitFreeFifo.init (S : Nat) [Inhabited α] : WaitFreeFifo α :=
  { elements := List.replicate S default
    readPoint := 0
    writePoint := 0
    numElements := 0 }

/-- `uint32_t size() const { return numElements; }` -/
def WaitFreeFifo.size (c : WaitFreeFifo α) : Nat := c.numElements

/-- `void pushBack(const T& inElement)` (`src/Internal/WaitFreeFifo.h`
lines 31-38, and `src/MessageQueue.h` lines 178-188):
`elements[writePoint] = inElement; writePoint = (writePoint + 1) % S;
numElements.fetch_add(1);`. -/
def WaitFreeFifo.pushBack (S : Nat) (c : WaitFreeFifo α) (inElement : α) :
    WaitFreeFifo α :=
  { elements := c.elements.set c.writePoint inElement
    readPoint := c.readPoint
    writePoint := u32add c.writePoint 1 % S
    numElements := u32add c.numElements 1 }

/-- `T popFront()` (`src/Internal/WaitFreeFifo.h` lines 40-49, and
`src/MessageQueue.h` lines 190-201): `T returnElement = elements[readPoint];
readPoint = (readPoint + 1) % S; numElements.fetch_sub(1);
return returnElement;`.  Returns the popped element with the new state. -/
def WaitFreeFifo.popFront (S : Nat) [Inhabited α] (c : WaitFreeFifo α) :
    α × WaitFreeFifo α :=
  (c.elements.getD c.readPoint default,
   { elements := c.elements
     readPoint := u32add c.readPoint 1 % S
     writePoint := c.writePoint
     numElements := u32sub c.numElements 1 })

/-- The `assert` conditions of `pushBack` in the modulo variants:
`assert(numElements < S); assert(writePoint < S);`. -/
def WaitFreeFifo.pushBackAssertOK (S : Nat) (c : WaitFreeFifo α) : Bool :=
  decide (c.numElements < S) && decide (c.writePoint < S)

/-- The `assert` conditions of `popFront` in the modulo variants:
`assert(numElements > 0); assert(readPoint < S);`. -/
def WaitFreeFifo.popFrontAssertOK (S : Nat) (c : WaitFreeFifo α) : Bool :=
  decide (0 < c.numElements) && decide (c.readPoint < S)

instance [Inhabited α] : Inhabited (WaitFreeFifo α) :=
  ⟨WaitFreeFifo.init 0⟩

end Internal

/-- State of `LWMessageQueue::ThreadChannel` (`src/LWMessageQueue.h`
lines 163-182): `MessageContainer elements[SIZE]; uint32_t readPoint;
uint32_t writePoint; std::atomic<uint32_t> numElements;`. -/
structure ThreadChannel (α : Type) where
  elements : List α
  readPoint : Nat
  writePoint : Nat
  numElements : Nat
deriving DecidableEq, Repr

/-- The constructor (`src/LWMessageQueue.h` lines 268-276):
`readPoint(0), writePoint(0), numElements(0)`; it also carries
`static_assert(Internal::isPowerOfTwo(SIZE), ...)`, embedded separately as
`ThreadChannel.sizeStaticAssert`. -/
def ThreadChannel.init (SIZE : Nat) [Inhabited α] : ThreadChannel α :=
  { elements := List.replicate SIZE default
    readPoint := 0
    writePoint := 0
    numElements := 0 }

/-- `static_assert(Internal::isPowerOfTwo(SIZE), "Template parameter SIZE
must be a power of two.");` in the `ThreadChannel` constructor
(`src/LWMessageQueue.h` line 274): instantiating the bitmask variant is
rejected at compile time unless this holds. -/
def ThreadChannel.sizeStaticAssert (SIZE : Nat) : Prop :=
  Internal.isPowerOfTwo SIZE = true

/-- `inline uint32_t size() const { return numElements; }`
(`src/LWMessageQueue.h` lines 278-281). -/
def ThreadChannel.size (c : ThreadChannel α) : Nat := c.numElements

/-- `void pushBack(const MessageContainer& inElement)`
(`src/LWMessageQueue.h` lines 283-293): `elements[writePoint] = inElement;
writePoint = (writePoint + 1) & sizeMinusOne; numElements.fetch_add(1);`. -/
def ThreadChannel.pushBack (SIZE : Nat) (c : ThreadChannel α)
    (inElement : α) : ThreadChannel α :=
  { elements := c.elements.set c.writePoint inElement
    readPoint := c.readPoint
    writePoint := u32add c.writePoint 1 &&& sizeMinusOne SIZE
    numElements := u32add c.numElements 1 }

/-- `MessageContainer popFront()` (`src/LWMessageQueue.h` lines 295-306):
`MessageContainer returnElement = elements[readPoint];
readPoint = (readPoint + 1) & sizeMinusOne; numElements.fetch_sub(1);
return returnElement;`. -/
def ThreadChannel.popFront (SIZE : Nat) [Inhabited α] (c : ThreadChannel α) :
    α × ThreadChannel α :=
  (c.elements.getD c.readPoint default,
   { elements := c.elements
     readPoint := u32add c.readPoint 1 &&& sizeMinusOne SIZE
     writePoint := c.writePoint
     numElements := u32sub c.numElements 1 })

/-- The `assert` conditions at the head of `ThreadChannel::pushBack`
(`src/LWMessageQueue.h` lines 287-288):
`assert(numElements < SIZE); assert(writePoint < SIZE);`. -/
def ThreadChannel.pushBackAssertOK (SIZE : Nat) (c : ThreadChannel α) : Bool :=
  decide (c.numElements < SIZE) && decide (c.writePoint < SIZE)

/-- The `assert` conditions at the head of `ThreadChannel::popFront`
(`src/LWMessageQueue.h` lines 298-299):
`assert(numElements > 0); assert(readPoint < SIZE);`. -/
def ThreadChannel.popFrontAssertOK (SIZE : Nat) (c : ThreadChannel α) : Bool :=
  decide (0 < c.numElements) && decide (c.readPoint < SIZE)

/-- Field-for-field view of a bitmask-variant channel as a modulo-variant
state (the two classes have identical members). -/
def ThreadChannel.toFifo (c : ThreadChannel α) : Internal.WaitFreeFifo α :=
  { elements := c.elements
    readPoint := c.readPoint
    writePoint := c.writePoint
    numElements := c.numElements }

/-- `LWMessageQueue::MessageContainer` (`src/LWMessageQueue.h` lines 83-96):
`TYPES type; MESSAGE message;`.  The `MESSAGE` union storage is embedded as
its byte contents (a `List Nat`), so that the `reinterpret_cast` reads and
writes become take/overwrite operations on the byte list. -/
structure MessageContainer (TYPES : Type) where
  type : TYPES
  message : List Nat
deriving DecidableEq, Repr

instance [Inhabited TYPES] : Inhabited (MessageContainer TYPES) :=
  ⟨{ type := default, message := [] }⟩

/-- `template<typename T> const T& getMessage() const`
(`src/LWMessageQueue.h` lines 196-200):
`return *(reinterpret_cast<const T*>(&message));` — reads the first
`sizeof(T)` bytes of the union storage as a `T`. -/
def MessageContainer.getMessage (sizeofT : Nat) (mc : MessageContainer TYPES) :
    List Nat :=
  mc.message.take sizeofT

/-- `TYPES getType() const { return type; }`
(`src/LWMessageQueue.h` lines 202-205). -/
def MessageContainer.getType (mc : MessageContainer TYPES) : TYPES := mc.type

/-- The container built inside `ThreadChannelInput::pushMessage`
(`src/LWMessageQueue.h` lines 227-231): a default-constructed container
(indeterminate storage bytes `junk`), whose `type` field is set to `inType`
and whose first `sizeof(T)` storage bytes are overwritten with the bytes `v`
of `inMessage` via `*reinterpret_cast<T*>(&messageContainer.message) =
inMessage`. -/
def mkPushedContainer (v : List Nat) (inType : TYPES) (junk : List Nat) :
    MessageContainer TYPES :=
  { type := inType, message := v ++ junk.drop v.length }

namespace ThreadChannelInput

/-- `inline bool isFull() const` (`src/LWMessageQueue.h` lines 214-217):
`return (threadChannel.size() == SIZE);`.  The handle holds a reference to
its channel, so it is embedded as a function of that channel's state. -/
def isFull (SIZE : Nat) (c : ThreadChannel α) : Bool :=
  c.size == SIZE

/-- `void pushMessage(const T& inMessage, const TYPES type)`
(`src/LWMessageQueue.h` lines 219-234): builds the container and delegates
to `threadChannel.pushBack(messageContainer)`.  Its two `static_assert`s
(`sizeof(T) <= sizeof(MESSAGE)`, alignment compatibility) appear as
hypotheses of the round-trip theorem. -/
def pushMessage (SIZE : Nat) (c : ThreadChannel (MessageContainer TYPES))
    (v : List Nat) (inType : TYPES) (junk : List Nat) :
    ThreadChannel (MessageContainer TYPES) :=
  c.pushBack SIZE (mkPushedContainer v inType junk)

end ThreadChannelInput

namespace MQ

/-- `bool ThreadChannelInput::isFull() const` of the modulo variant
(`src/MessageQueue.h` lines 210-213):
`return (threadChannel.size() == QUEUE_SIZE);`. -/
def isFull (QUEUE_SIZE : Nat) (c : Internal.WaitFreeFifo α) : Bool :=
  c.size == QUEUE_SIZE

/-- The body of `ThreadChannelInput::operator=` in `src/MessageQueue.h`
(lines 229-236): `threadChannel = other.threadChannel; return *this;`.
`threadChannel` is a `ThreadChannel&` reference member, so the assignment
goes through the reference: it copy-assigns the state of the channel `other`
refers to onto the channel `*this` refers to, and the referent of `*this`
is not (and cannot be) rebound.  The Fan-in Queue's channel array is the
`channels` list and a handle's referent is its channel index.  (The invoked
`ThreadChannel` copy assignment is in fact deleted — `src/MessageQueue.h`
line 134 — so any instantiation of this operator is ill-formed; this
definition embeds the compositional meaning of the statement as written.) -/
def inputHandleAssign [Inhabited α] (channels : List (Internal.WaitFreeFifo α))
    (thisRef otherRef : Nat) : List (Internal.WaitFreeFifo α) × Nat :=
  (channels.set thisRef (channels.getD otherRef default), thisRef)

end MQ

/-- The defaulted copy constructor of the handles
(`src/LWMessageQueue.h` lines 102 and 127): copies the reference member,
i.e. the new handle refers to the same channel; no channel is touched. -/
def handleCopy (referent : Nat) : Nat := referent

/-- A single operation on one channel: a `pushBack` of an element, or a
`popFront`. -/
inductive ChanOp (α : Type) where
  | push : α → ChanOp α
  | pop : ChanOp α
deriving DecidableEq, Repr

/-- Number of pushes in an operation sequence. -/
def countPush : List (ChanOp α) → Nat
  | [] => 0
  | ChanOp.push _ :: rest => countPush rest + 1
  | ChanOp.pop :: rest => countPush rest

/-- Number of pops in an operation sequence. -/
def countPop : List (ChanOp α) → Nat
  | [] => 0
  | ChanOp.push _ :: rest => countPop rest
  | ChanOp.pop :: rest => countPop rest + 1

/-- Run a sequence of operations on a bitmask-variant channel. -/
def ThreadChannel.runOps (SIZE : Nat) [Inhabited α] :
    ThreadChannel α → List (ChanOp α) → ThreadChannel α
  | c, [] => c
  | c, ChanOp.push x :: rest => runOps SIZE (c.pushBack SIZE x) rest
  | c, ChanOp.pop :: rest => runOps SIZE (c.popFront SIZE).2 rest

/-- Every operation of the sequence meets its documented precondition when
it runs: each push finds `numElements < SIZE` (channel not full) and each
pop finds `numElements > 0` (channel not empty). -/
def ThreadChannel.validOps (SIZE : Nat) [Inhabited α] :
    ThreadChannel α → List (ChanOp α) → Bool
  | _, [] => true
  | c, ChanOp.push x :: rest =>
      decide (c.numElements < SIZE) && validOps SIZE (c.pushBack SIZE x) rest
  | c, ChanOp.pop :: rest =>
      decide (0 < c.numElements) && validOps SIZE (c.popFront SIZE).2 rest

/-- Run a sequence of operations on a modulo-variant channel. -/
def Internal.WaitFreeFifo.runOps (S : Nat) [Inhabited α] :
    Internal.WaitFreeFifo α → List (ChanOp α) → Internal.WaitFreeFifo α
  | c, [] => c
  | c, ChanOp.push x :: rest => runOps S (c.pushBack S x) rest
  | c, ChanOp.pop :: rest => runOps S (c.popFront S).2 rest

/-- Preconditions of every operation in the sequence hold when it runs
(modulo variant). -/
def Internal.WaitFreeFifo.validOps (S : Nat) [Inhabited α] :
    Internal.WaitFreeFifo α → List (ChanOp α) → Bool
  | _, [] => true
  | c, ChanOp.push x :: rest =>
      decide (c.numElements < S) && validOps S (c.pushBack S x) rest
  | c, ChanOp.pop :: rest =>
      decide (0 < c.numElements) && validOps S (c.popFront S).2 rest

/-- Push a list of elements in order (bitmask variant). -/
def ThreadChannel.pushAll (SIZE : Nat) :
    ThreadChannel α → List α → ThreadChannel α
  | c, [] => c
  | c, x :: rest => pushAll SIZE (c.pushBack SIZE x) rest

/-- Pop `n` elements, returning them in pop order (bitmask variant). -/
def ThreadChannel.popN (SIZE : Nat) [Inhabited α] :
    Nat → ThreadChannel α → List α × ThreadChannel α
  | 0, c => ([], c)
  | n + 1, c =>
      let p := c.popFront SIZE
      let q := popN SIZE n p.2
      (p.1 :: q.1, q.2)

/-- Push a list of elements in order (modulo variant). -/
def Internal.WaitFreeFifo.pushAll (S : Nat) :
    Internal.WaitFreeFifo α → List α → Internal.WaitFreeFifo α
  | c, [] => c
  | c, x :: rest => pushAll S (c.pushBack S x) rest

/-- Pop `n` elements, returning them in pop order (modulo variant). -/
def Internal.WaitFreeFifo.popN (S : Nat) [Inhabited α] :
    Nat → Internal.WaitFreeFifo α → List α × Internal.WaitFreeFifo α
  | 0, c => ([], c)
  | n + 1, c =>
      let p := c.popFront S
      let q := popN S n p.2
      (p.1 :: q.1, q.2)

/-- The reachable-state invariant of a channel of capacity `S`: the array
has `S` cells, both cursors are in range, the occupancy counter is at most
`S`, and the write cursor sits `numElements` slots (mod `S`) past the read
cursor. -/
def Internal.WaitFreeFifo.inv (S : Nat) (c : Internal.WaitFreeFifo α) : Prop :=
  c.elements.length = S ∧ c.readPoint < S ∧ c.numElements ≤ S ∧
    c.writePoint = (c.readPoint + c.numElements) % S

/-- The pending (pushed, not yet popped) elements of a channel, oldest
first: the `numElements` array slots starting at `readPoint`, mod `S`. -/
def Internal.WaitFreeFifo.pending (S : Nat) [Inhabited α]
    (c : Internal.WaitFreeFifo α) : List α :=
  (List.range c.numElements).map
    (fun i => c.elements.getD ((c.readPoint + i) % S) default)

/-- Invariant and pending list for the bitmask variant, read through the
field-for-field view. -/
def ThreadChannel.inv (SIZE : Nat) (c : ThreadChannel α) : Prop :=
  c.toFifo.inv SIZE

/-- Pending elements of a bitmask-variant channel, oldest first. -/
def ThreadChannel.pending (SIZE : Nat) [Inhabited α] (c : ThreadChannel α) :
    List α :=
  c.toFifo.pending SIZE

/-! Helper lemmas: `uint32_t` arithmetic, list cells, the power-of-two
predicate, and the correspondence between the bitmask and modulo variants. -/

theorem u32add_eq {a b : Nat} (h : a + b < U32) : u32add a b = a + b := by
  unfold u32add
  exact Nat.mod_eq_of_lt h

theorem u32sub_one {n : Nat} (h0 : 0 < n) (h : n < U32) : u32sub n 1 = n - 1 := by
  unfold u32sub U32 at *
  omega

theorem sizeMinusOne_eq {S : Nat} (h0 : 0 < S) (h : S < U32) :
    sizeMinusOne S = S - 1 :=
  u32sub_one h0 h

theorem getD_set_self (l : List α) (i : Nat) (x d : α) (h : i < l.length) :
    (l.set i x).getD i d = x := by
  simp [List.getD_eq_getElem?_getD, List.getElem?_set_self h]

theorem getD_set_of_ne (l : List α) {i j : Nat} (x d : α) (h : i ≠ j) :
    (l.set i x).getD j d = l.getD j d := by
  simp [List.getD_eq_getElem?_getD, List.getElem?_set_ne h]

theorem isPowerOfTwo_iff_exists (v : Nat) :
    Internal.isPowerOfTwo v = true ↔ ∃ k, v = 2 ^ k := by
  constructor
  · intro h
    simp only [Internal.isPowerOfTwo, Bool.and_eq_true, bne_iff_ne, ne_eq,
      beq_iff_eq] at h
    obtain ⟨hne, hand⟩ := h
    refine ⟨v.log2, ?_⟩
    by_contra hne2
    have h1 : 2 ^ v.log2 ≤ v := Nat.log2_self_le hne
    have h2 : v < 2 ^ (v.log2 + 1) := Nat.lt_log2_self
    have h2' : 2 ^ (v.log2 + 1) = 2 * 2 ^ v.log2 := by
      rw [Nat.pow_succ, Nat.mul_comm]
    have h3 : 2 ^ v.log2 < v :=
      lt_of_le_of_ne h1 (fun he => hne2 he.symm)
    have hb1 : v.testBit v.log2 = true := by
      rw [Nat.testBit_to_div_mod]
      have hdiv : v / 2 ^ v.log2 = 1 :=
        Nat.div_eq_of_lt_le (by omega) (by omega)
      rw [hdiv]
      rfl
    have hb2 : (v - 1).testBit v.log2 = true := by
      rw [Nat.testBit_to_div_mod]
      have hdiv : (v - 1) / 2 ^ v.log2 = 1 :=
        Nat.div_eq_of_lt_le (by omega) (by omega)
      rw [hdiv]
      rfl
    have hcontra : (v &&& (v - 1)).testBit v.log2 = true := by
      rw [Nat.testBit_and, hb1, hb2]
      rfl
    rw [hand] at hcontra
    simp [Nat.zero_testBit] at hcontra
  · rintro ⟨k, rfl⟩
    have hpos : 0 < 2 ^ k := Nat.pos_pow_of_pos k (by omega)
    simp [Internal.isPowerOfTwo, Nat.and_pow_two_sub_one_eq_mod, Nat.mod_self,
      Nat.ne_of_gt hpos]

theorem isPowerOfTwo_pos {v : Nat} (h : Internal.isPowerOfTwo v = true) :
    0 < v := by
  obtain ⟨k, rfl⟩ := (isPowerOfTwo_iff_exists v).1 h
  exact Nat.pos_pow_of_pos k (by omega)

theorem and_sizeMinusOne {S : Nat} (hpow : Internal.isPowerOfTwo S = true)
    (hS : S < U32) (x : Nat) : x &&& sizeMinusOne S = x % S := by
  rw [sizeMinusOne_eq (isPowerOfTwo_pos hpow) hS]
  obtain ⟨k, rfl⟩ := (isPowerOfTwo_iff_exists S).1 hpow
  exact Nat.and_pow_two_sub_one_eq_mod x k

theorem toFifo_pushBack {S : Nat} (hpow : Internal.isPowerOfTwo S = true)
    (hS : S < U32) (c : ThreadChannel α) (x : α) :
    (c.pushBack S x).toFifo = c.toFifo.pushBack S x := by
  simp [ThreadChannel.pushBack, Internal.WaitFreeFifo.pushBack,
    ThreadChannel.toFifo, and_sizeMinusOne hpow hS]

theorem toFifo_popFront {S : Nat} [Inhabited α]
    (hpow : Internal.isPowerOfTwo S = true) (hS : S < U32)
    (c : ThreadChannel α) :
    (c.popFront S).1 = (c.toFifo.popFront S).1 ∧
    (c.popFront S).2.toFifo = (c.toFifo.popFront S).2 := by
  refine ⟨rfl, ?_⟩
  simp [ThreadChannel.popFront, Internal.WaitFreeFifo.popFront,
    ThreadChannel.toFifo, and_sizeMinusOne hpow hS]

theorem toFifo_init (S : Nat) [Inhabited α] :
    (ThreadChannel.init S : ThreadChannel α).toFifo =
      Internal.WaitFreeFifo.init S := rfl

theorem toFifo_pushAll {S : Nat} (hpow : Internal.isPowerOfTwo S = true)
    (hS : S < U32) :
    ∀ (ms : List α) (c : ThreadChannel α),
      (c.pushAll S ms).toFifo = c.toFifo.pushAll S ms := by
  intro ms
  induction ms with
  | nil => intro c; rfl
  | cons x rest ih =>
      intro c
      rw [ThreadChannel.pushAll, Internal.WaitFreeFifo.pushAll, ih,
        toFifo_pushBack hpow hS]

theorem toFifo_popN {S : Nat} [Inhabited α]
    (hpow : Internal.isPowerOfTwo S = true) (hS : S < U32) :
    ∀ (n : Nat) (c : ThreadChannel α),
      (ThreadChannel.popN S n c).1 =
        (Internal.WaitFreeFifo.popN S n c.toFifo).1 ∧
      (ThreadChannel.popN S n c).2.toFifo =
        (Internal.WaitFreeFifo.popN S n c.toFifo).2 := by
  intro n
  induction n with
  | zero => intro c; exact ⟨rfl, rfl⟩
  | succ m ih =>
      intro c
      obtain ⟨hfst, hsnd⟩ := toFifo_popFront hpow hS c
      obtain ⟨ih1, ih2⟩ := ih (c.popFront S).2
      constructor
      · show (c.popFront S).1 :: (ThreadChannel.popN S m (c.popFront S).2).1 = _
        rw [Internal.WaitFreeFifo.popN, ← hsnd, ← hfst, ih1]
      · show (ThreadChannel.popN S m (c.popFront S).2).2.toFifo = _
        rw [Internal.WaitFreeFifo.popN, ← hsnd, ih2]

theorem pending_length [Inhabited α] (S : Nat) (c : Internal.WaitFreeFifo α) :
    (c.pending S).length = c.numElements := by
  simp [Internal.WaitFreeFifo.pending]

theorem pending_of_empty [Inhabited α] (S : Nat) {c : Internal.WaitFreeFifo α}
    (h : c.numElements = 0) : c.pending S = [] := by
  simp [Internal.WaitFreeFifo.pending, h]

theorem init_inv (S : Nat) [Inhabited α] (hpos : 0 < S) :
    (Internal.WaitFreeFifo.init S : Internal.WaitFreeFifo α).inv S := by
  refine ⟨?_, hpos, Nat.zero_le _, ?_⟩ <;>
    simp [Internal.WaitFreeFifo.init, Internal.WaitFreeFifo.inv]

theorem pushBack_spec [Inhabited α] {S : Nat} (hS : S < U32)
    {c : Internal.WaitFreeFifo α} (x : α)
    (hinv : c.inv S) (hlt : c.numElements < S) :
    (c.pushBack S x).inv S ∧
    (c.pushBack S x).numElements = c.numElements + 1 ∧
    (c.pushBack S x).pending S = c.pending S ++ [x] := by
  obtain ⟨hlen, hread, hle, hw⟩ := hinv
  have hSpos : 0 < S := by omega
  have hwlt : c.writePoint < S := by rw [hw]; exact Nat.mod_lt _ hSpos
  have hadd1 : u32add c.writePoint 1 = c.writePoint + 1 := u32add_eq (by omega)
  have hnum1 : u32add c.numElements 1 = c.numElements + 1 := u32add_eq (by omega)
  refine ⟨⟨?_, hread, ?_, ?_⟩, ?_, ?_⟩
  · simp [Internal.WaitFreeFifo.pushBack, hlen]
  · simp only [Internal.WaitFreeFifo.pushBack, hnum1]; omega
  · show u32add c.writePoint 1 % S = (c.readPoint + u32add c.numElements 1) % S
    rw [hadd1, hnum1, hw, Nat.mod_add_mod]
    have harith : c.readPoint + c.numElements + 1
        = c.readPoint + (c.numElements + 1) := by omega
    rw [harith]
  · simp only [Internal.WaitFreeFifo.pushBack, hnum1]
  · simp only [Internal.WaitFreeFifo.pending, Internal.WaitFreeFifo.pushBack,
      hnum1]
    rw [List.range_succ, List.map_append]
    congr 1
    · apply List.map_congr_left
      intro i hi
      rw [List.mem_range] at hi
      apply getD_set_of_ne
      rw [hw]
      intro heq
      have hcancel : c.numElements % S = i % S :=
        Nat.ModEq.add_left_cancel' c.readPoint heq
      rw [Nat.mod_eq_of_lt hlt, Nat.mod_eq_of_lt (by omega)] at hcancel
      omega
    · simp only [List.map_cons, List.map_nil]
      congr 1
      rw [← hw]
      exact getD_set_self _ _ _ _ (by omega)

theorem popFront_spec [Inhabited α] {S : Nat} (hS : S < U32)
    {c : Internal.WaitFreeFifo α}
    (hinv : c.inv S) (hpos : 0 < c.numElements) :
    (c.popFront S).2.inv S ∧
    (c.popFront S).2.numElements = c.numElements - 1 ∧
    (c.popFront S).1 :: (c.popFront S).2.pending S = c.pending S := by
  obtain ⟨hlen, hread, hle, hw⟩ := hinv
  have hSpos : 0 < S := by omega
  have hr1 : u32add c.readPoint 1 = c.readPoint + 1 := u32add_eq (by omega)
  have hn1 : u32sub c.numElements 1 = c.numElements - 1 :=
    u32sub_one hpos (by omega)
  refine ⟨⟨hlen, ?_, ?_, ?_⟩, ?_, ?_⟩
  · exact Nat.mod_lt _ hSpos
  · simp only [Internal.WaitFreeFifo.popFront, hn1]; omega
  · show c.writePoint = (u32add c.readPoint 1 % S + u32sub c.numElements 1) % S
    rw [hr1, hn1, hw, Nat.mod_add_mod]
    have harith : c.readPoint + 1 + (c.numElements - 1)
        = c.readPoint + c.numElements := by omega
    rw [harith]
  · simp only [Internal.WaitFreeFifo.popFront, hn1]
  · obtain ⟨m, hm⟩ : ∃ m, c.numElements = m + 1 :=
      ⟨c.numElements - 1, by omega⟩
    have hn1' : u32sub (m + 1) 1 = m := by
      rw [u32sub_one (by omega) (by omega)]
      omega
    simp only [Internal.WaitFreeFifo.pending, Internal.WaitFreeFifo.popFront,
      hn1', hr1, hm, Nat.add_sub_cancel]
    rw [List.range_succ_eq_map, List.map_cons, List.map_map]
    have hidx : ∀ i : Nat, ((c.readPoint + 1) % S + i) % S
        = (c.readPoint + Nat.succ i) % S := by
      intro i
      rw [Nat.mod_add_mod]
      have harith : c.readPoint + 1 + i = c.readPoint + Nat.succ i := by omega
      rw [harith]
    simp only [hidx, Nat.add_zero, Nat.mod_eq_of_lt hread, Function.comp_def]

theorem pushAll_spec [Inhabited α] {S : Nat} (hS : S < U32) :
    ∀ (ms : List α) (c : Internal.WaitFreeFifo α), c.inv S →
      c.numElements + ms.length ≤ S →
      (c.pushAll S ms).inv S ∧
      (c.pushAll S ms).numElements = c.numElements + ms.length ∧
      (c.pushAll S ms).pending S = c.pending S ++ ms := by
  intro ms
  induction ms with
  | nil =>
      intro c hinv _
      exact ⟨hinv, by simp [Internal.WaitFreeFifo.pushAll],
        by simp [Internal.WaitFreeFifo.pushAll]⟩
  | cons x rest ih =>
      intro c hinv hle
      have hlt : c.numElements < S := by simp [List.length_cons] at hle; omega
      obtain ⟨hinv1, hnum1, hpend1⟩ := pushBack_spec hS x hinv hlt
      obtain ⟨hinv2, hnum2, hpend2⟩ := ih (c.pushBack S x) hinv1
        (by rw [hnum1]; simp [List.length_cons] at hle ⊢; omega)
      have hrun : c.pushAll S (x :: rest) = (c.pushBack S x).pushAll S rest :=
        rfl
      refine ⟨hrun ▸ hinv2, ?_, ?_⟩
      · rw [hrun, hnum2, hnum1, List.length_cons]
        omega
      · rw [hrun, hpend2, hpend1, List.append_assoc, List.singleton_append]

theorem popN_spec [Inhabited α] {S : Nat} (hS : S < U32) :
    ∀ (n : Nat) (c : Internal.WaitFreeFifo α), c.inv S → n ≤ c.numElements →
      (Internal.WaitFreeFifo.popN S n c).2.inv S ∧
      (Internal.WaitFreeFifo.popN S n c).2.numElements = c.numElements - n ∧
      (Internal.WaitFreeFifo.popN S n c).1 ++
          (Internal.WaitFreeFifo.popN S n c).2.pending S = c.pending S := by
  intro n
  induction n with
  | zero =>
      intro c hinv _
      exact ⟨hinv, by simp [Internal.WaitFreeFifo.popN],
        by simp [Internal.WaitFreeFifo.popN]⟩
  | succ m ih =>
      intro c hinv hle
      obtain ⟨hinv1, hnum1, hpend1⟩ := popFront_spec hS hinv (by omega)
      obtain ⟨hinv2, hnum2, hpend2⟩ := ih (c.popFront S).2 hinv1
        (by rw [hnum1]; omega)
      have hrun : Internal.WaitFreeFifo.popN S (m + 1) c =
          ((c.popFront S).1 ::
              (Internal.WaitFreeFifo.popN S m (c.popFront S).2).1,
            (Internal.WaitFreeFifo.popN S m (c.popFront S).2).2) := rfl
      rw [hrun]
      refine ⟨hinv2, ?_, ?_⟩
      · rw [hnum2, hnum1]
        omega
      · show (c.popFront S).1 ::
            (Internal.WaitFreeFifo.popN S m (c.popFront S).2).1 ++ _ = _
        rw [List.cons_append, hpend2, hpend1]

theorem run_spec_tc [Inhabited α] {SIZE : Nat} (hS : SIZE < U32) :
    ∀ (t : List (ChanOp α)) (c : ThreadChannel α),
      c.numElements ≤ SIZE → c.readPoint < SIZE → c.writePoint < SIZE →
      c.elements.length = SIZE →
      ThreadChannel.validOps SIZE c t = true →
      (ThreadChannel.runOps SIZE c t).numElements + countPop t
          = c.numElements + countPush t ∧
      (ThreadChannel.runOps SIZE c t).numElements ≤ SIZE ∧
      (ThreadChannel.runOps SIZE c t).readPoint < SIZE ∧
      (ThreadChannel.runOps SIZE c t).writePoint < SIZE ∧
      (ThreadChannel.runOps SIZE c t).elements.length = SIZE := by
  intro t
  induction t with
  | nil =>
      intro c h1 h2 h3 h4 _
      exact ⟨rfl, h1, h2, h3, h4⟩
  | cons op rest ih =>
      cases op with
      | push x =>
          intro c h1 h2 h3 h4 hv
          simp only [ThreadChannel.validOps, Bool.and_eq_true,
            decide_eq_true_eq] at hv
          obtain ⟨hlt, hv'⟩ := hv
          have hSpos : 0 < SIZE := by omega
          have hnum : (c.pushBack SIZE x).numElements = c.numElements + 1 :=
            u32add_eq (by omega)
          have hwlt : (c.pushBack SIZE x).writePoint < SIZE := by
            show u32add c.writePoint 1 &&& sizeMinusOne SIZE < SIZE
            rw [sizeMinusOne_eq hSpos hS]
            have hle' := Nat.and_le_right (n := u32add c.writePoint 1)
              (m := SIZE - 1)
            omega
          have hlen : (c.pushBack SIZE x).elements.length = SIZE := by
            simp [ThreadChannel.pushBack, h4]
          obtain ⟨e1, e2, e3, e4, e5⟩ := ih (c.pushBack SIZE x)
            (by omega) h2 hwlt hlen hv'
          refine ⟨?_, e2, e3, e4, e5⟩
          show (ThreadChannel.runOps SIZE (c.pushBack SIZE x) rest).numElements
              + countPop rest = c.numElements + (countPush rest + 1)
          omega
      | pop =>
          intro c h1 h2 h3 h4 hv
          simp only [ThreadChannel.validOps, Bool.and_eq_true,
            decide_eq_true_eq] at hv
          obtain ⟨hpos, hv'⟩ := hv
          have hSpos : 0 < SIZE := by omega
          have hnum : (c.popFront SIZE).2.numElements = c.numElements - 1 :=
            u32sub_one hpos (by omega)
          have hrlt : (c.popFront SIZE).2.readPoint < SIZE := by
            show u32add c.readPoint 1 &&& sizeMinusOne SIZE < SIZE
            rw [sizeMinusOne_eq hSpos hS]
            have hle' := Nat.and_le_right (n := u32add c.readPoint 1)
              (m := SIZE - 1)
            omega
          obtain ⟨e1, e2, e3, e4, e5⟩ := ih (c.popFront SIZE).2
            (by omega) hrlt h3 h4 hv'
          refine ⟨?_, e2, e3, e4, e5⟩
          show (ThreadChannel.runOps SIZE (c.popFront SIZE).2 rest).numElements
              + (countPop rest + 1) = c.numElements + countPush rest
          omega

theorem run_spec_wf [Inhabited α] {S : Nat} (hS : S < U32) :
    ∀ (t : List (ChanOp α)) (c : Internal.WaitFreeFifo α),
      c.numElements ≤ S → c.readPoint < S → c.writePoint < S →
      c.elements.length = S →
      Internal.WaitFreeFifo.validOps S c t = true →
      (Internal.WaitFreeFifo.runOps S c t).numElements + countPop t
          = c.numElements + countPush t ∧
      (Internal.WaitFreeFifo.runOps S c t).numElements ≤ S ∧
      (Internal.WaitFreeFifo.runOps S c t).readPoint < S ∧
      (Internal.WaitFreeFifo.runOps S c t).writePoint < S ∧
      (Internal.WaitFreeFifo.runOps S c t).elements.length = S := by
  intro t
  induction t with
  | nil =>
      intro c h1 h2 h3 h4 _
      exact ⟨rfl, h1, h2, h3, h4⟩
  | cons op rest ih =>
      cases op with
      | push x =>
          intro c h1 h2 h3 h4 hv
          simp only [Internal.WaitFreeFifo.validOps, Bool.and_eq_true,
            decide_eq_true_eq] at hv
          obtain ⟨hlt, hv'⟩ := hv
          have hSpos : 0 < S := by omega
          have hnum : (c.pushBack S x).numElements = c.numElements + 1 :=
            u32add_eq (by omega)
          have hwlt : (c.pushBack S x).writePoint < S := Nat.mod_lt _ hSpos
          have hlen : (c.pushBack S x).elements.length = S := by
            simp [Internal.WaitFreeFifo.pushBack, h4]
          obtain ⟨e1, e2, e3, e4, e5⟩ := ih (c.pushBack S x)
            (by omega) h2 hwlt hlen hv'
          refine ⟨?_, e2, e3, e4, e5⟩
          show (Internal.WaitFreeFifo.runOps S (c.pushBack S x) rest).numElements
              + countPop rest = c.numElements + (countPush rest + 1)
          omega
      | pop =>
          intro c h1 h2 h3 h4 hv
          simp only [Internal.WaitFreeFifo.validOps, Bool.and_eq_true,
            decide_eq_true_eq] at hv
          obtain ⟨hpos, hv'⟩ := hv
          have hSpos : 0 < S := by omega
          have hnum : (c.popFront S).2.numElements = c.numElements - 1 :=
            u32sub_one hpos (by omega)
          have hrlt : (c.popFront S).2.readPoint < S := Nat.mod_lt _ hSpos
          obtain ⟨e1, e2, e3, e4, e5⟩ := ih (c.popFront S).2
            (by omega) hrlt h3 h4 hv'
          refine ⟨?_, e2, e3, e4, e5⟩
          show (Internal.WaitFreeFifo.runOps S (c.popFront S).2 rest).numElements
              + (countPop rest + 1) = c.numElements + countPush rest
          omega

/-! Claim theorems. -/

/-- Claim C1: FIFO per channel.  For every channel starting empty and every
sequence of `k` pushes of containers `ms = m1, ..., mk` via `pushBack` with
no interleaved pops, performing `k` `popFront` calls returns
`m1, ..., mk` in that exact order.  Proved for the bitmask variant
`ThreadChannel` (whose construction requires `SIZE` to be a power of two)
and for the modulo variant `Internal.WaitFreeFifo`. -/
theorem fifo_per_channel [Inhabited α] (SIZE : Nat) (ms : List α)
    (hpow : Internal.isPowerOfTwo SIZE = true) (hS : SIZE < U32)
    (hlen : ms.length ≤ SIZE) :
    (ThreadChannel.popN SIZE ms.length
        ((ThreadChannel.init SIZE : ThreadChannel α).pushAll SIZE ms)).1 = ms ∧
    (Internal.WaitFreeFifo.popN SIZE ms.length
        ((Internal.WaitFreeFifo.init SIZE :
            Internal.WaitFreeFifo α).pushAll SIZE ms)).1 = ms := by
  have hSpos : 0 < SIZE := isPowerOfTwo_pos hpow
  have h0 : (Internal.WaitFreeFifo.init SIZE :
      Internal.WaitFreeFifo α).numElements = 0 := rfl
  have hwf : (Internal.WaitFreeFifo.popN SIZE ms.length
      ((Internal.WaitFreeFifo.init SIZE :
          Internal.WaitFreeFifo α).pushAll SIZE ms)).1 = ms := by
    obtain ⟨hinv1, hnum1, hpend1⟩ := pushAll_spec hS ms
      (Internal.WaitFreeFifo.init SIZE) (init_inv SIZE hSpos)
      (by rw [h0]; omega)
    rw [pending_of_empty SIZE h0, List.nil_append] at hpend1
    obtain ⟨hinv2, hnum2, hpend2⟩ := popN_spec hS ms.length
      ((Internal.WaitFreeFifo.init SIZE :
          Internal.WaitFreeFifo α).pushAll SIZE ms) hinv1
      (by rw [hnum1, h0]; omega)
    have hzero : (Internal.WaitFreeFifo.popN SIZE ms.length
        ((Internal.WaitFreeFifo.init SIZE :
            Internal.WaitFreeFifo α).pushAll SIZE ms)).2.numElements = 0 := by
      rw [hnum2, hnum1, h0]
      omega
    rw [pending_of_empty SIZE hzero, List.append_nil, hpend1] at hpend2
    exact hpend2
  refine ⟨?_, hwf⟩
  rw [(toFifo_popN hpow hS ms.length
      ((ThreadChannel.init SIZE : ThreadChannel α).pushAll SIZE ms)).1,
    toFifo_pushAll hpow hS, toFifo_init]
  exact hwf

/-- Witness for C1 at `SIZE = 4`, `ms = [1, 2, 3]`. -/
theorem fifo_per_channel_witness :
    (ThreadChannel.popN 4 3
        ((ThreadChannel.init 4 : ThreadChannel Nat).pushAll 4 [1, 2, 3])).1
      = [1, 2, 3] :=
  (fifo_per_channel 4 [1, 2, 3] (by decide) (by decide) (by decide)).1

/-- Claim C2: occupancy accuracy.  For every channel starting empty and
every interleaving `t` of pushes and pops in which every operation's
precondition (push: not full, pop: not empty) held when it ran, `size()`
afterwards equals the number of pushes minus the number of pops (which is
therefore nonnegative), and this value is within `[0, Capacity]`.  Proved
for both the bitmask `ThreadChannel` and the modulo
`Internal.WaitFreeFifo` variants. -/
theorem occupancy_accuracy [Inhabited α] (SIZE : Nat) (t : List (ChanOp α))
    (hSpos : 0 < SIZE) (hS : SIZE < U32)
    (hv1 : ThreadChannel.validOps SIZE
        (ThreadChannel.init SIZE : ThreadChannel α) t = true)
    (hv2 : Internal.WaitFreeFifo.validOps SIZE
        (Internal.WaitFreeFifo.init SIZE : Internal.WaitFreeFifo α) t
        = true) :
    countPop t ≤ countPush t ∧
    (ThreadChannel.runOps SIZE (ThreadChannel.init SIZE :
        ThreadChannel α) t).size = countPush t - countPop t ∧
    (Internal.WaitFreeFifo.runOps SIZE (Internal.WaitFreeFifo.init SIZE :
        Internal.WaitFreeFifo α) t).size = countPush t - countPop t ∧
    countPush t - countPop t ≤ SIZE := by
  obtain ⟨e1, e2, _, _, _⟩ := run_spec_tc hS t
    (ThreadChannel.init SIZE : ThreadChannel α)
    (Nat.zero_le SIZE) hSpos hSpos (by simp [ThreadChannel.init]) hv1
  obtain ⟨f1, f2, _, _, _⟩ := run_spec_wf hS t
    (Internal.WaitFreeFifo.init SIZE : Internal.WaitFreeFifo α)
    (Nat.zero_le SIZE) hSpos hSpos
    (by simp [Internal.WaitFreeFifo.init]) hv2
  have h0tc : (ThreadChannel.init SIZE : ThreadChannel α).numElements = 0 :=
    rfl
  have h0wf : (Internal.WaitFreeFifo.init SIZE :
      Internal.WaitFreeFifo α).numElements = 0 := rfl
  rw [h0tc] at e1
  rw [h0wf] at f1
  refine ⟨by omega, ?_, ?_, by omega⟩
  · show (ThreadChannel.runOps SIZE (ThreadChannel.init SIZE :
        ThreadChannel α) t).numElements = countPush t - countPop t
    omega
  · show (Internal.WaitFreeFifo.runOps SIZE (Internal.WaitFreeFifo.init SIZE :
        Internal.WaitFreeFifo α) t).numElements = countPush t - countPop t
    omega

/-- Witness for C2 at `SIZE = 2` and a six-operation interleaving
(3 pushes, 3 pops, all preconditions holding). -/
theorem occupancy_accuracy_witness :
    (ThreadChannel.runOps 2 (ThreadChannel.init 2 : ThreadChannel Nat)
        [ChanOp.push 5, ChanOp.push 6, ChanOp.pop, ChanOp.push 7,
          ChanOp.pop, ChanOp.pop]).size
      = countPush [ChanOp.push 5, ChanOp.push 6, ChanOp.pop, ChanOp.push 7,
          ChanOp.pop, ChanOp.pop]
        - countPop [ChanOp.push (5 : Nat), ChanOp.push 6, ChanOp.pop,
          ChanOp.push 7, ChanOp.pop, ChanOp.pop] :=
  (occupancy_accuracy 2
    [ChanOp.push 5, ChanOp.push 6, ChanOp.pop, ChanOp.push 7,
      ChanOp.pop, ChanOp.pop]
    (by decide) (by decide) (by decide) (by decide)).2.1

/-- Claim C3: round-trip fidelity.  For every payload byte string `v`
(with `sizeof(T) <= sizeof(MESSAGE)`, as the `static_assert`s in
`pushMessage` require) and every tag `t`, popping the container produced by
`pushMessage(v, t)` on the same channel yields a container whose
`getMessage<T>()` is bit-for-bit equal to `v` and whose `getType()` equals
the pushed tag. -/
theorem round_trip_fidelity {TYPES : Type} [Inhabited TYPES]
    (SIZE sizeofMESSAGE : Nat)
    (hpow : Internal.isPowerOfTwo SIZE = true) (hS : SIZE < U32)
    (v junk : List Nat) (t : TYPES)
    (hsize : v.length ≤ sizeofMESSAGE) (hjunk : junk.length = sizeofMESSAGE) :
    MessageContainer.getMessage v.length
        ((ThreadChannelInput.pushMessage SIZE
            (ThreadChannel.init SIZE) v t junk).popFront SIZE).1 = v ∧
    MessageContainer.getType
        ((ThreadChannelInput.pushMessage SIZE
            (ThreadChannel.init SIZE) v t junk).popFront SIZE).1 = t := by
  have hSpos : 0 < SIZE := isPowerOfTwo_pos hpow
  have hpop : ((ThreadChannelInput.pushMessage SIZE
      (ThreadChannel.init SIZE :
        ThreadChannel (MessageContainer TYPES)) v t junk).popFront SIZE).1
      = mkPushedContainer v t junk := by
    show ((List.replicate SIZE (default : MessageContainer TYPES)).set 0
        (mkPushedContainer v t junk)).getD 0 default
        = mkPushedContainer v t junk
    exact getD_set_self _ _ _ _ (by simpa using hSpos)
  rw [hpop]
  refine ⟨?_, rfl⟩
  show (v ++ junk.drop v.length).take v.length = v
  exact List.take_left v (junk.drop v.length)

/-- Witness for C3 at `SIZE = 2`, a two-byte payload `[7, 8]` inside a
three-byte union storage, tag `5`. -/
theorem round_trip_fidelity_witness :
    MessageContainer.getMessage 2
        ((ThreadChannelInput.pushMessage 2
            (ThreadChannel.init 2) [7, 8] (5 : Nat) [0, 0, 0]).popFront 2).1
      = [7, 8] ∧
    MessageContainer.getType
        ((ThreadChannelInput.pushMessage 2
            (ThreadChannel.init 2) [7, 8] (5 : Nat) [0, 0, 0]).popFront 2).1
      = 5 :=
  round_trip_fidelity 2 3 (by decide) (by decide) [7, 8] [0, 0, 0] 5
    (by decide) (by decide)

/-- Claim C4: bitmask/modulo wrap equivalence.  For every capacity `S` that
is a power of two (and representable in `uint32_t`) and every index
`i < S`, the bitmask advancement `(i + 1) & sizeMinusOne` of the
`ThreadChannel` variant equals the modulo advancement `(i + 1) % S` of the
`WaitFreeFifo`/`MessageQueue.h` variants; consequently `pushBack` and
`popFront` of the two variants produce field-for-field identical states and
identical popped elements. -/
theorem bitmask_modulo_wrap_equiv [Inhabited α] (S : Nat)
    (hpow : Internal.isPowerOfTwo S = true) (hS : S < U32) :
    (∀ i : Nat, i < S → (i + 1) &&& sizeMinusOne S = (i + 1) % S) ∧
    (∀ (c : ThreadChannel α) (x : α),
        (c.pushBack S x).toFifo = c.toFifo.pushBack S x) ∧
    (∀ c : ThreadChannel α,
        (c.popFront S).1 = (c.toFifo.popFront S).1 ∧
        (c.popFront S).2.toFifo = (c.toFifo.popFront S).2) :=
  ⟨fun i _ => and_sizeMinusOne hpow hS (i + 1),
   fun c x => toFifo_pushBack hpow hS c x,
   fun c => toFifo_popFront hpow hS c⟩

/-- Witness for C4 at `S = 8`, `i = 5`, and a concrete channel state. -/
theorem bitmask_modulo_wrap_equiv_witness :
    (5 + 1) &&& sizeMinusOne 8 = (5 + 1) % 8 ∧
    ((⟨[3, 4], 1, 0, 2⟩ : ThreadChannel Nat).pushBack 8 9).toFifo
      = (⟨[3, 4], 1, 0, 2⟩ : ThreadChannel Nat).toFifo.pushBack 8 9 :=
  ⟨(bitmask_modulo_wrap_equiv (α := Nat) 8 (by decide) (by decide)).1 5
      (by decide),
   (bitmask_modulo_wrap_equiv (α := Nat) 8 (by decide) (by decide)).2.1
      ⟨[3, 4], 1, 0, 2⟩ 9⟩

/-- Claim C5: full/empty boundary contract.  In a checked (debug) build,
`pushBack` on a channel whose `size()` equals `SIZE` fails its assertion,
and `popFront` on a channel whose `size()` is `0` fails its assertion; on a
reachable (invariant-satisfying) state meeting the precondition
(`size() < SIZE` for push, `size() > 0` for pop) every assertion passes,
the push appends exactly the given container to the pending sequence (no
silent drop) and the pop returns exactly the oldest pending container (no
sentinel). -/
theorem full_empty_boundary_contract [Inhabited α] (SIZE : Nat)
    (hpow : Internal.isPowerOfTwo SIZE = true) (hS : SIZE < U32)
    (c : ThreadChannel α) (x : α) :
    (c.size = SIZE → ThreadChannel.pushBackAssertOK SIZE c = false) ∧
    (c.size = 0 → ThreadChannel.popFrontAssertOK SIZE c = false) ∧
    (c.inv SIZE → c.size < SIZE →
      ThreadChannel.pushBackAssertOK SIZE c = true ∧
      (c.pushBack SIZE x).pending SIZE = c.pending SIZE ++ [x]) ∧
    (c.inv SIZE → 0 < c.size →
      ThreadChannel.popFrontAssertOK SIZE c = true ∧
      (c.popFront SIZE).1 :: (c.popFront SIZE).2.pending SIZE
        = c.pending SIZE) := by
  have hSpos : 0 < SIZE := isPowerOfTwo_pos hpow
  refine ⟨?_, ?_, ?_, ?_⟩
  · intro h
    have h' : c.numElements = SIZE := h
    simp [ThreadChannel.pushBackAssertOK, h']
  · intro h
    have h' : c.numElements = 0 := h
    simp [ThreadChannel.popFrontAssertOK, h']
  · intro hinv hlt
    have hfields : c.elements.length = SIZE ∧ c.readPoint < SIZE ∧
        c.numElements ≤ SIZE ∧
        c.writePoint = (c.readPoint + c.numElements) % SIZE := hinv
    obtain ⟨hlen, hread, hle, hw⟩ := hfields
    have hlt' : c.numElements < SIZE := hlt
    have hwlt : c.writePoint < SIZE := by
      rw [hw]; exact Nat.mod_lt _ hSpos
    refine ⟨by simp [ThreadChannel.pushBackAssertOK, hlt', hwlt], ?_⟩
    show (c.pushBack SIZE x).toFifo.pending SIZE
        = c.toFifo.pending SIZE ++ [x]
    rw [toFifo_pushBack hpow hS]
    exact (pushBack_spec hS x hinv hlt').2.2
  · intro hinv hpos
    have hfields : c.elements.length = SIZE ∧ c.readPoint < SIZE ∧
        c.numElements ≤ SIZE ∧
        c.writePoint = (c.readPoint + c.numElements) % SIZE := hinv
    obtain ⟨hlen, hread, hle, hw⟩ := hfields
    have hpos' : 0 < c.numElements := hpos
    refine ⟨by simp [ThreadChannel.popFrontAssertOK, hpos', hread], ?_⟩
    show (c.popFront SIZE).1 :: (c.popFront SIZE).2.toFifo.pending SIZE
        = c.toFifo.pending SIZE
    rw [(toFifo_popFront hpow hS c).2, (toFifo_popFront hpow hS c).1]
    exact (popFront_spec hS hinv hpos').2.2

/-- Witness for C5 at `SIZE = 2` and the full reachable state
`⟨[5, 6], 0, 0, 2⟩`: its push assertion fails, and as it also satisfies
the precondition for popping, its pop assertion passes. -/
theorem full_empty_boundary_contract_witness :
    ThreadChannel.pushBackAssertOK 2 (⟨[5, 6], 0, 0, 2⟩ : ThreadChannel Nat)
      = false ∧
    ThreadChannel.popFrontAssertOK 2 (⟨[5, 6], 0, 0, 2⟩ : ThreadChannel Nat)
      = true :=
  ⟨(full_empty_boundary_contract 2 (by decide) (by decide)
      (⟨[5, 6], 0, 0, 2⟩ : ThreadChannel Nat) 0).1 rfl,
   ((full_empty_boundary_contract 2 (by decide) (by decide)
      (⟨[5, 6], 0, 0, 2⟩ : ThreadChannel Nat) 0).2.2.2
      (by exact ⟨rfl, by decide, by decide, by decide⟩) (by decide)).1⟩

/-- Claim C6: `isFull` characterization.  For every channel state, the
input handle's `isFull()` returns `true` if and only if the channel's
`size()` equals the capacity template parameter (`SIZE` in
`LWMessageQueue.h`, `QUEUE_SIZE` in `MessageQueue.h`); proved for both
variants. -/
theorem isFull_iff_size_eq_capacity (SIZE : Nat) (c : ThreadChannel α)
    (f : Internal.WaitFreeFifo β) :
    (ThreadChannelInput.isFull SIZE c = true ↔ c.size = SIZE) ∧
    (MQ.isFull SIZE f = true ↔ f.size = SIZE) := by
  constructor <;> simp [ThreadChannelInput.isFull, MQ.isFull]

/-- Claim C7: power-of-two fail-fast check.  For every `uint32_t` value,
`Internal::isPowerOfTwo(value)` returns `true` iff `value = 2^k` for some
`k >= 0` (in particular it is `false` at `0`), and the `static_assert` in
the bitmask variant's channel constructor rejects every `SIZE` for which
the predicate is `false`. -/
theorem isPowerOfTwo_characterization (v : Nat) (hv : v < U32) :
    (Internal.isPowerOfTwo v = true ↔ ∃ k, v = 2 ^ k) ∧
    Internal.isPowerOfTwo 0 = false ∧
    (Internal.isPowerOfTwo v = false → ¬ ThreadChannel.sizeStaticAssert v) := by
  refine ⟨isPowerOfTwo_iff_exists v, rfl, ?_⟩
  intro hfalse hassert
  have htrue : Internal.isPowerOfTwo v = true := hassert
  rw [htrue] at hfalse
  cases hfalse

/-- Witness for C7 at `v = 8 = 2^3` (and the `v = 0` case). -/
theorem isPowerOfTwo_characterization_witness :
    Internal.isPowerOfTwo 8 = true ∧ Internal.isPowerOfTwo 0 = false :=
  ⟨(isPowerOfTwo_characterization 8 (by decide)).1.mpr ⟨3, rfl⟩,
   (isPowerOfTwo_characterization 8 (by decide)).2.1⟩

/-- Claim C8 (code divergence): evaluation of the handle assignment written
in `src/MessageQueue.h` lines 229-236 at a concrete input.  With two
channels (channel 0 empty, channel 1 holding one element) and a handle
referring to channel 0 assigned from a handle referring to channel 1, the
modelled `operator=` body leaves the handle's referent at channel 0 and
overwrites channel 0's state — the channel array changes — contradicting
the claim that the referenced channel state is unchanged and only the
handle's referent is affected.  (As written the operator is in fact
ill-formed to instantiate, because `ThreadChannel`'s copy assignment is
deleted, so handles are not reassignable at all.) -/
theorem handle_reassign_eval :
    (MQ.inputHandleAssign
        [Internal.WaitFreeFifo.init 2,
          (Internal.WaitFreeFifo.init 2 :
              Internal.WaitFreeFifo Nat).pushBack 2 7] 0 1).2 = 0 ∧
    (MQ.inputHandleAssign
        [Internal.WaitFreeFifo.init 2,
          (Internal.WaitFreeFifo.init 2 :
              Internal.WaitFreeFifo Nat).pushBack 2 7] 0 1).1
      ≠ [Internal.WaitFreeFifo.init 2,
          (Internal.WaitFreeFifo.init 2 :
              Internal.WaitFreeFifo Nat).pushBack 2 7] := by
  refine ⟨rfl, ?_⟩
  decide

/-- Claim C9: index-range invariant.  Starting from the constructed state,
every sequence of `pushBack` and `popFront` calls satisfying their
preconditions keeps `readPoint` and `writePoint` strictly below `SIZE`
(so every access `elements[writePoint]` and `elements[readPoint]` is in
bounds of the `SIZE`-cell array) and keeps `numElements` in `[0, SIZE]`;
proved for both the bitmask and the modulo variants. -/
theorem index_range_invariant [Inhabited α] (SIZE : Nat)
    (t : List (ChanOp α)) (hSpos : 0 < SIZE) (hS : SIZE < U32)
    (hv1 : ThreadChannel.validOps SIZE
        (ThreadChannel.init SIZE : ThreadChannel α) t = true)
    (hv2 : Internal.WaitFreeFifo.validOps SIZE
        (Internal.WaitFreeFifo.init SIZE : Internal.WaitFreeFifo α) t
        = true) :
    (ThreadChannel.runOps SIZE (ThreadChannel.init SIZE :
        ThreadChannel α) t).readPoint < SIZE ∧
    (ThreadChannel.runOps SIZE (ThreadChannel.init SIZE :
        ThreadChannel α) t).writePoint < SIZE ∧
    (ThreadChannel.runOps SIZE (ThreadChannel.init SIZE :
        ThreadChannel α) t).numElements ≤ SIZE ∧
    (ThreadChannel.runOps SIZE (ThreadChannel.init SIZE :
        ThreadChannel α) t).elements.length = SIZE ∧
    (Internal.WaitFreeFifo.runOps SIZE (Internal.WaitFreeFifo.init SIZE :
        Internal.WaitFreeFifo α) t).readPoint < SIZE ∧
    (Internal.WaitFreeFifo.runOps SIZE (Internal.WaitFreeFifo.init SIZE :
        Internal.WaitFreeFifo α) t).writePoint < SIZE ∧
    (Internal.WaitFreeFifo.runOps SIZE (Internal.WaitFreeFifo.init SIZE :
        Internal.WaitFreeFifo α) t).numElements ≤ SIZE ∧
    (Internal.WaitFreeFifo.runOps SIZE (Internal.WaitFreeFifo.init SIZE :
        Internal.WaitFreeFifo α) t).elements.length = SIZE := by
  obtain ⟨_, e2, e3, e4, e5⟩ := run_spec_tc hS t
    (ThreadChannel.init SIZE : ThreadChannel α)
    (Nat.zero_le SIZE) hSpos hSpos (by simp [ThreadChannel.init]) hv1
  obtain ⟨_, f2, f3, f4, f5⟩ := run_spec_wf hS t
    (Internal.WaitFreeFifo.init SIZE : Internal.WaitFreeFifo α)
    (Nat.zero_le SIZE) hSpos hSpos
    (by simp [Internal.WaitFreeFifo.init]) hv2
  exact ⟨e3, e4, e2, e5, f3, f4, f2, f5⟩

/-- Witness for C9 at `SIZE = 2` and a five-operation interleaving that
wraps both cursors. -/
theorem index_range_invariant_witness :
    (ThreadChannel.runOps 2 (ThreadChannel.init 2 : ThreadChannel Nat)
        [ChanOp.push 1, ChanOp.push 2, ChanOp.pop, ChanOp.push 3,
          ChanOp.pop]).readPoint < 2 :=
  (index_range_invariant 2
    [ChanOp.push 1, ChanOp.push 2, ChanOp.pop, ChanOp.push 3, ChanOp.pop]
    (by decide) (by decide) (by decide) (by decide)).1

/-- Claim C10: pop frame property.  `popFront` returns a copy of the
container at the read index, and leaves the elements array (including the
slot just popped, which is neither cleared nor overwritten) and the write
index unchanged; it modifies only the read index and the element count.
Proved for both the bitmask and the modulo variants. -/
theorem popFront_frame (SIZE : Nat) [Inhabited α] (c : ThreadChannel α)
    (f : Internal.WaitFreeFifo α) :
    (c.popFront SIZE).1 = c.elements.getD c.readPoint default ∧
    (c.popFront SIZE).2.elements = c.elements ∧
    (c.popFront SIZE).2.writePoint = c.writePoint ∧
    (f.popFront SIZE).1 = f.elements.getD f.readPoint default ∧
    (f.popFront SIZE).2.elements = f.elements ∧
    (f.popFront SIZE).2.writePoint = f.writePoint :=
  ⟨rfl, rfl, rfl, rfl, rfl, rfl⟩

end LWMessageQueue
